import Mathlib

/-!
# Verification of the parakeet.js streaming transducer decoding engine

This file formalises the frame-synchronous greedy TDT decode loop of the
repository's Python reference implementation
(`tests/python_reference.py`, function `transcribe_with_debug`,
lines 176-243), together with the result-assembly step (lines 242-243),
and proves the invariants, termination bounds and synthetic-scorer
behaviours stated for it.

The Scoring Function (the ONNX decoder-joint model composed with the two
argmax reductions of lines 210-211) is treated as an opaque function
returning a predicted token index, a predicted duration step and a new
decoder state, exactly the three quantities on which the loop's control
flow depends.  Encoder frames and decoder states are opaque type
parameters, since the engine only passes them through.
-/

namespace Parakeet

/-- The per-call result of the Scoring Function: the argmax token index
(line 210), the argmax duration step (line 211, `0` when the duration
head is absent), and the new decoder state (`new_state1, new_state2`,
line 195). -/
structure ScoreResult (σ : Type) where
  token : Nat
  step : Nat
  newState : σ
  deriving DecidableEq

/-- The inputs of one decode pass: the encoder frames (`encodings`,
accessed by index), the valid length `T` (`encodings_len`), the blank
token index (`blank_idx`), the per-frame emission cap
(`max_tokens_per_step`, 10 in the source), and the Scoring Function
(the `decoder_joint.run` call of lines 195-211 reduced to its three
control-relevant outputs). -/
structure Engine (φ σ : Type) where
  frames : Nat → φ
  T : Nat
  blankIdx : Nat
  maxPerFrame : Nat
  score : φ → Nat → σ → ScoreResult σ

/-- The mutable loop variables of lines 177-187: the frame cursor `t`,
the per-frame emission counter `emitted_tokens`, the accumulated
`tokens` and `timestamps` lists, and the decoder state `prev_state`.
`callLog` instruments the loop: it records, in order, the cursor value
`t` at every frame read / Scoring Function call (line 192/195), so the
number of calls and the indices read can be stated. -/
structure LoopState (σ : Type) where
  t : Nat
  emitted : Nat
  tokens : List Nat
  timestamps : List Nat
  state : σ
  callLog : List Nat
  deriving DecidableEq

variable {φ σ : Type}

/-- The previous-token input of the scoring call:
`tokens[-1] if tokens else blank_idx` (line 199). -/
def lastToken (E : Engine φ σ) (s : LoopState σ) : Nat :=
  s.tokens.getLast?.getD E.blankIdx

/-- The Scoring Function's result for the current iteration
(lines 195-211): it is applied to the frame at the cursor, the previous
token and the current decoder state. -/
def scoreAt (E : Engine φ σ) (s : LoopState σ) : ScoreResult σ :=
  E.score (E.frames s.t) (lastToken E s) s.state

/-- The emission block of lines 223-229: on a non-blank token the state
is replaced, the token and the current cursor are appended, and the
per-frame counter is incremented; on blank nothing changes. -/
def emitStep (E : Engine φ σ) (s : LoopState σ) (r : ScoreResult σ) : LoopState σ :=
  if r.token ≠ E.blankIdx then
    { s with
      state := r.newState
      tokens := s.tokens ++ [r.token]
      timestamps := s.timestamps ++ [s.t]
      emitted := s.emitted + 1 }
  else s

/-- The frame-advancement block of lines 233-239: a positive duration
step advances the cursor by `step` and resets the counter; otherwise a
blank token or a counter at the cap advances by 1 and resets; otherwise
the cursor stays. -/
def advanceStep (E : Engine φ σ) (s : LoopState σ) (r : ScoreResult σ) : LoopState σ :=
  if 0 < r.step then
    { s with t := s.t + r.step, emitted := 0 }
  else if r.token = E.blankIdx ∨ E.maxPerFrame ≤ s.emitted then
    { s with t := s.t + 1, emitted := 0 }
  else s

/-- One iteration of the `while t < encodings_len` body (lines 191-239):
read the frame and call the Scoring Function (logged in `callLog`),
apply the emission block, then the advancement block. -/
def stepFn (E : Engine φ σ) (s : LoopState σ) : LoopState σ :=
  advanceStep E (emitStep E { s with callLog := s.callLog ++ [s.t] } (scoreAt E s)) (scoreAt E s)

/-- The decode loop, fuel-indexed: one unit of fuel per iteration.
`none` means the fuel was exhausted with the loop guard still true; the
termination theorem shows the fuel used by `decode` is always enough. -/
def run (E : Engine φ σ) : Nat → LoopState σ → Option (LoopState σ)
  | 0, s => if s.t < E.T then none else some s
  | fuel + 1, s => if s.t < E.T then run E fuel (stepFn E s) else some s

/-- The loop variables as initialised on lines 177-186. -/
def initState (init : σ) : LoopState σ :=
  ⟨0, 0, [], [], init, []⟩

/-- A whole decode pass from the caller-supplied initial state, with
fuel `T * (maxPerFrame + 1)`, the spec's call bound. -/
def decode (E : Engine φ σ) (init : σ) : Option (LoopState σ) :=
  run E (E.T * (E.maxPerFrame + 1)) (initState init)

/-- The list comprehension `[vocab[i] for i in tokens]` of line 242:
look every emitted token index up in the vocabulary, left to right; a
missing index fails the whole lookup, as the source's `vocab[i]`
raises. -/
def lookupAll (vocab : Nat → Option String) : List Nat → Option (List String)
  | [] => some []
  | i :: rest =>
    match vocab i with
    | none => none
    | some tok => (lookupAll vocab rest).map (fun parts => tok :: parts)

/-- Result assembly (lines 242-243): look all emitted token indices up,
then concatenate and trim (`"".join(text_tokens).strip()`). -/
def assembleText (vocab : Nat → Option String) (tokens : List Nat) : Option String :=
  (lookupAll vocab tokens).map (fun parts => (String.join parts).trim)

/-- The termination measure of one decode pass: remaining frames times
the cap, minus the emissions already made on the current frame. -/
def mu (E : Engine φ σ) (s : LoopState σ) : Nat :=
  (E.T - s.t) * E.maxPerFrame - s.emitted

/-! ## Concrete instances used to evaluate the theorems

Frames and decoder states are both instantiated with `Nat`; the scoring
functions below are the synthetic scorers of the spec's test section. -/

/-- A scorer that always predicts a fixed non-blank token (index 1) with
duration step 0 and a constant new state, over `T = 2` frames with
`maxPerFrame = 2`. -/
def engineEmit : Engine Nat Nat :=
  ⟨fun _ => 0, 2, 0, 2, fun _ _ _ => ⟨1, 0, 0⟩⟩

/-- A scorer that always predicts blank with duration step 0, over
`T = 3` frames. -/
def engineBlank : Engine Nat Nat :=
  ⟨fun _ => 0, 3, 0, 10, fun _ _ st => ⟨0, 0, st⟩⟩

/-- A scorer that always predicts a non-blank token with duration step 5,
over `T = 20` frames. -/
def engineJump : Engine Nat Nat :=
  ⟨fun _ => 0, 20, 0, 10, fun _ _ _ => ⟨1, 5, 0⟩⟩

/-- An engine whose cap is 1 and whose scorer predicts a non-blank token
with step 0 and a *changed* state (`st + 1`): its single iteration per
frame is cut off by the per-frame emission cap. -/
def engineCap : Engine Nat Nat :=
  ⟨fun _ => 0, 1, 0, 1, fun _ _ st => ⟨1, 0, st + 1⟩⟩

/-- A scorer that always predicts blank together with duration step 5,
over `T = 5` frames. -/
def engineBlankJump : Engine Nat Nat :=
  ⟨fun _ => 0, 5, 0, 10, fun _ _ st => ⟨0, 5, st⟩⟩

/-- A two-entry vocabulary missing every index except 0 and 3. -/
def vocabEx : Nat → Option String :=
  fun i => if i = 0 then some "he" else if i = 3 then some "y" else none

/-! ## Basic facts about one iteration -/

theorem stepFn_callLog (E : Engine φ σ) (s : LoopState σ) :
    (stepFn E s).callLog = s.callLog ++ [s.t] := by
  unfold stepFn advanceStep emitStep
  split_ifs <;> simp

theorem stepFn_t_le (E : Engine φ σ) (s : LoopState σ) :
    s.t ≤ (stepFn E s).t := by
  unfold stepFn advanceStep emitStep
  split_ifs <;> simp

/-- Every iteration either stays on the frame, incrementing the counter
below the cap, or advances the cursor and resets the counter. -/
theorem stepFn_shape (E : Engine φ σ) (s : LoopState σ) :
    ((stepFn E s).t = s.t ∧ (stepFn E s).emitted = s.emitted + 1 ∧
      s.emitted + 1 < E.maxPerFrame) ∨
    (s.t < (stepFn E s).t ∧ (stepFn E s).emitted = 0) := by
  unfold stepFn advanceStep emitStep
  split_ifs with h1 h2 h3 h4 h5 <;> simp_all

/-- The token and timestamp lists receive the same number of entries in
one iteration (either both one entry, on emission, or both none). -/
theorem stepFn_len (E : Engine φ σ) (s : LoopState σ) :
    ((stepFn E s).tokens = s.tokens ++ [(scoreAt E s).token] ∧
      (stepFn E s).timestamps = s.timestamps ++ [s.t]) ∨
    ((stepFn E s).tokens = s.tokens ∧ (stepFn E s).timestamps = s.timestamps) := by
  unfold stepFn advanceStep emitStep
  split_ifs <;> simp

/-! ## Basic facts about the fuel-indexed loop -/

theorem run_of_ge (E : Engine φ σ) (fuel : Nat) (s : LoopState σ) (h : E.T ≤ s.t) :
    run E fuel s = some s := by
  cases fuel <;> simp [run, Nat.not_lt.mpr h]

theorem run_succ_of_lt (E : Engine φ σ) (fuel : Nat) (s : LoopState σ) (h : s.t < E.T) :
    run E (fuel + 1) s = run E fuel (stepFn E s) := by
  simp [run, h]

/-- More fuel never changes a successful run. -/
theorem run_mono (E : Engine φ σ) (fuel : Nat) :
    ∀ j (s s' : LoopState σ), run E fuel s = some s' → run E (fuel + j) s = some s' := by
  induction fuel with
  | zero =>
    intro j s s' h
    simp only [run] at h
    rcases Nat.lt_or_ge s.t E.T with ht | ht
    · simp [ht] at h
    · rw [run_of_ge E _ s ht]
      simpa [ht] using h
  | succ n ih =>
    intro j s s' h
    rcases Nat.lt_or_ge s.t E.T with ht | ht
    · rw [run_succ_of_lt E n s ht] at h
      have : n + 1 + j = n + j + 1 := by omega
      rw [this, run_succ_of_lt E (n + j) s ht]
      exact ih j _ s' h
    · rw [run_of_ge E _ s ht] at h ⊢
      exact h

/-- Each unit of fuel consumed logs exactly one Scoring Function call. -/
theorem run_calls_le (E : Engine φ σ) (fuel : Nat) :
    ∀ s s' : LoopState σ, run E fuel s = some s' →
      s'.callLog.length ≤ s.callLog.length + fuel := by
  induction fuel with
  | zero =>
    intro s s' h
    simp only [run] at h
    rcases Nat.lt_or_ge s.t E.T with ht | ht
    · simp [ht] at h
    · simp [Nat.not_lt.mpr ht] at h
      subst h
      omega
  | succ n ih =>
    intro s s' h
    rcases Nat.lt_or_ge s.t E.T with ht | ht
    · rw [run_succ_of_lt E n s ht] at h
      have := ih _ s' h
      rw [stepFn_callLog] at this
      simp at this
      omega
    · rw [run_of_ge E _ s ht] at h
      cases h
      omega

/-- Any property preserved by one iteration under the loop guard is
preserved by the whole loop. -/
theorem run_inv (E : Engine φ σ) (P : LoopState σ → Prop)
    (hstep : ∀ s, s.t < E.T → P s → P (stepFn E s)) (fuel : Nat) :
    ∀ s s' : LoopState σ, P s → run E fuel s = some s' → P s' := by
  induction fuel with
  | zero =>
    intro s s' hP h
    simp only [run] at h
    rcases Nat.lt_or_ge s.t E.T with ht | ht
    · simp [ht] at h
    · simp [ht] at h
      exact h ▸ hP
  | succ n ih =>
    intro s s' hP h
    rcases Nat.lt_or_ge s.t E.T with ht | ht
    · rw [run_succ_of_lt E n s ht] at h
      exact ih _ s' (hstep s ht hP) h
    · rw [run_of_ge E _ s ht] at h
      cases h
      exact hP

/-! ## Termination -/

theorem stepFn_emitted_lt (E : Engine φ σ) (s : LoopState σ)
    (he : s.emitted < E.maxPerFrame) :
    (stepFn E s).emitted < E.maxPerFrame := by
  rcases stepFn_shape E s with ⟨_, h2, h3⟩ | ⟨_, h2⟩ <;> omega

theorem stepFn_mu_lt (E : Engine φ σ) (s : LoopState σ)
    (ht : s.t < E.T) (he : s.emitted < E.maxPerFrame) :
    mu E (stepFn E s) < mu E s := by
  have hTt : 1 ≤ E.T - s.t := by omega
  have hbase : E.maxPerFrame ≤ (E.T - s.t) * E.maxPerFrame :=
    le_mul_of_one_le_left (Nat.zero_le _) hTt
  rcases stepFn_shape E s with ⟨h1, h2, _⟩ | ⟨h1, h2⟩
  · unfold mu
    rw [h1, h2]
    exact Nat.sub_lt_sub_left (by omega) (by omega)
  · unfold mu
    rw [h2]
    have hsub : E.T - (stepFn E s).t ≤ E.T - s.t - 1 := by omega
    calc (E.T - (stepFn E s).t) * E.maxPerFrame - 0
        ≤ (E.T - s.t - 1) * E.maxPerFrame := by
          simpa using Nat.mul_le_mul_right E.maxPerFrame hsub
      _ = (E.T - s.t) * E.maxPerFrame - E.maxPerFrame := by
          rw [Nat.sub_one_mul]
      _ < (E.T - s.t) * E.maxPerFrame - s.emitted :=
          Nat.sub_lt_sub_left (by omega) he

/-- Fuel exceeding the measure always suffices for the loop to reach
`t ≥ T`, provided the counter is below the cap. -/
theorem run_terminates (E : Engine φ σ) (fuel : Nat) :
    ∀ s : LoopState σ, s.emitted < E.maxPerFrame → mu E s < fuel →
      ∃ s', run E fuel s = some s' := by
  induction fuel with
  | zero =>
    intro s _ hmu
    exact absurd hmu (Nat.not_lt_zero _)
  | succ n ih =>
    intro s he hmu
    rcases Nat.lt_or_ge s.t E.T with ht | ht
    · rw [run_succ_of_lt E n s ht]
      exact ih (stepFn E s) (stepFn_emitted_lt E s he)
        (by have := stepFn_mu_lt E s ht he; omega)
    · exact ⟨s, run_of_ge E _ s ht⟩

/-- A whole decode pass always terminates when the cap is positive. -/
theorem decode_terminates (E : Engine φ σ) (init : σ) (hm : 1 ≤ E.maxPerFrame) :
    ∃ s', decode E init = some s' := by
  unfold decode
  rcases Nat.eq_zero_or_pos E.T with hT | hT
  · exact ⟨initState init, run_of_ge E _ _ (by simp [initState, hT])⟩
  · refine run_terminates E _ (initState init) (by simpa [initState] using hm) ?_
    have : mu E (initState init) = E.T * E.maxPerFrame := by
      simp [mu, initState]
    rw [this, Nat.mul_add, Nat.mul_one]
    omega

/-! ## Synthetic scorers -/

/-- One iteration under an always-blank, step-0 scorer only moves the
cursor forward by one. -/
theorem blank_stepFn (E : Engine φ σ) (s : LoopState σ)
    (hb : (scoreAt E s).token = E.blankIdx) (hs : (scoreAt E s).step = 0) :
    stepFn E s = ⟨s.t + 1, 0, s.tokens, s.timestamps, s.state, s.callLog ++ [s.t]⟩ := by
  unfold stepFn advanceStep emitStep
  simp [hb, hs]

/-- Under an always-blank, step-0 scorer the loop walks the cursor from
`t` to `T` one frame at a time, calling the scorer once per frame and
touching nothing else. -/
theorem blank_run (E : Engine φ σ)
    (hb : ∀ f p st, (E.score f p st).token = E.blankIdx)
    (hs : ∀ f p st, (E.score f p st).step = 0) :
    ∀ n fuel (s : LoopState σ), E.T = s.t + n → s.emitted = 0 → n ≤ fuel →
      run E fuel s =
        some ⟨E.T, 0, s.tokens, s.timestamps, s.state, s.callLog ++ List.range' s.t n 1⟩ := by
  intro n
  induction n with
  | zero =>
    intro fuel s hT he _
    rw [run_of_ge E fuel s (by omega)]
    cases s
    simp_all
  | succ n ih =>
    intro fuel s hT he hf
    obtain ⟨f, rfl⟩ : ∃ f, fuel = f + 1 := ⟨fuel - 1, by omega⟩
    rw [run_succ_of_lt E f s (by omega),
      blank_stepFn E s (hb _ _ _) (hs _ _ _),
      ih f _ (by simp; omega) rfl (by omega)]
    simp [List.range'_succ]

/-- One iteration under a constant non-blank step-0 scorer, when the
incremented counter stays below the cap: emit and stay on the frame. -/
theorem const_stepFn_stay (E : Engine φ σ) (s : LoopState σ)
    (hb : (scoreAt E s).token ≠ E.blankIdx) (hs : (scoreAt E s).step = 0)
    (hc : s.emitted + 1 < E.maxPerFrame) :
    stepFn E s = ⟨s.t, s.emitted + 1, s.tokens ++ [(scoreAt E s).token],
      s.timestamps ++ [s.t], (scoreAt E s).newState, s.callLog ++ [s.t]⟩ := by
  unfold stepFn advanceStep emitStep
  simp [hb, hs]
  omega

/-- One iteration under a constant non-blank step-0 scorer, when the
incremented counter reaches the cap: emit and advance by one frame. -/
theorem const_stepFn_advance (E : Engine φ σ) (s : LoopState σ)
    (hb : (scoreAt E s).token ≠ E.blankIdx) (hs : (scoreAt E s).step = 0)
    (hc : E.maxPerFrame ≤ s.emitted + 1) :
    stepFn E s = ⟨s.t + 1, 0, s.tokens ++ [(scoreAt E s).token],
      s.timestamps ++ [s.t], (scoreAt E s).newState, s.callLog ++ [s.t]⟩ := by
  unfold stepFn advanceStep emitStep
  simp [hb, hs, hc]

/-- Under a constant non-blank step-0 scorer, a frame whose counter is
`j + 1` short of the cap is processed by `j + 1` consecutive emissions
of the fixed token at the current cursor, after which the cursor is
forcibly advanced by one and the counter reset. -/
theorem const_frame (E : Engine φ σ) (k : Nat) (hk : k ≠ E.blankIdx)
    (hb : ∀ f p st, (E.score f p st).token = k)
    (hs : ∀ f p st, (E.score f p st).step = 0) :
    ∀ j fuel (s : LoopState σ), s.t < E.T → E.maxPerFrame = s.emitted + (j + 1) →
      ∃ st', run E (fuel + (j + 1)) s =
        run E fuel ⟨s.t + 1, 0, s.tokens ++ List.replicate (j + 1) k,
          s.timestamps ++ List.replicate (j + 1) s.t, st',
          s.callLog ++ List.replicate (j + 1) s.t⟩ := by
  intro j
  induction j with
  | zero =>
    intro fuel s ht hm
    refine ⟨(scoreAt E s).newState, ?_⟩
    rw [run_succ_of_lt E fuel s ht,
      const_stepFn_advance E s (by rw [scoreAt, hb]; exact hk) (by rw [scoreAt, hs])
        (by omega)]
    simp [scoreAt, hb]
  | succ j ih =>
    intro fuel s ht hm
    have hstep := const_stepFn_stay E s (by rw [scoreAt, hb]; exact hk)
      (by rw [scoreAt, hs]) (by omega)
    have h1 : fuel + (j + 1 + 1) = (fuel + (j + 1)) + 1 := by omega
    rw [h1, run_succ_of_lt E _ s ht, hstep]
    obtain ⟨st', hrun⟩ := ih fuel
      ⟨s.t, s.emitted + 1, s.tokens ++ [(scoreAt E s).token],
        s.timestamps ++ [s.t], (scoreAt E s).newState, s.callLog ++ [s.t]⟩
      ht (by simp; omega)
    refine ⟨st', ?_⟩
    rw [hrun]
    simp [scoreAt, hb, List.replicate_succ]

set_option maxRecDepth 4000 in
/-- Under a constant non-blank step-0 scorer with a positive cap, the
loop processes each of the `n` remaining frames with exactly
`maxPerFrame` emissions of the fixed token at that frame. -/
theorem const_run (E : Engine φ σ) (k : Nat) (hk : k ≠ E.blankIdx)
    (hm : 1 ≤ E.maxPerFrame)
    (hb : ∀ f p st, (E.score f p st).token = k)
    (hs : ∀ f p st, (E.score f p st).step = 0) :
    ∀ n fuel (s : LoopState σ), E.T = s.t + n → s.emitted = 0 →
      ∃ st', run E (fuel + n * E.maxPerFrame) s =
        some ⟨E.T, 0, s.tokens ++ List.replicate (n * E.maxPerFrame) k,
          s.timestamps ++ ((List.range' s.t n 1).flatMap fun u => List.replicate E.maxPerFrame u),
          st', s.callLog ++ ((List.range' s.t n 1).flatMap fun u => List.replicate E.maxPerFrame u)⟩ := by
  intro n
  induction n with
  | zero =>
    intro fuel s hT he
    refine ⟨s.state, ?_⟩
    rw [Nat.zero_mul, Nat.add_zero, run_of_ge E fuel s (by omega)]
    cases s
    simp_all
  | succ n ih =>
    intro fuel s hT he
    obtain ⟨st', hfr⟩ := const_frame E k hk hb hs (E.maxPerFrame - 1)
      (fuel + n * E.maxPerFrame) s (by omega) (by omega)
    obtain ⟨st'', hrun⟩ := ih fuel
      ⟨s.t + 1, 0, s.tokens ++ List.replicate (E.maxPerFrame - 1 + 1) k,
        s.timestamps ++ List.replicate (E.maxPerFrame - 1 + 1) s.t, st',
        s.callLog ++ List.replicate (E.maxPerFrame - 1 + 1) s.t⟩
      (by simp; omega) rfl
    refine ⟨st'', ?_⟩
    have h1 : fuel + (n + 1) * E.maxPerFrame
        = (fuel + n * E.maxPerFrame) + (E.maxPerFrame - 1 + 1) := by
      rw [Nat.succ_mul]
      omega
    rw [h1, hfr, hrun]
    have h2 : E.maxPerFrame - 1 + 1 = E.maxPerFrame := by omega
    have h3 : (n + 1) * E.maxPerFrame = E.maxPerFrame + n * E.maxPerFrame := by
      rw [Nat.succ_mul]
      omega
    simp only [h2, h3, List.range'_succ, List.replicate_add, List.flatMap_cons,
    List.append_assoc]

/-- One iteration under a positive predicted duration step: the cursor
jumps by the step, the counter resets, and at most one token (the
predicted one, if non-blank) is emitted at the old cursor. -/
theorem jump_stepFn (E : Engine φ σ) (s : LoopState σ) (hc : 0 < (scoreAt E s).step) :
    ∃ (tk : List Nat) (st' : σ), tk.length ≤ 1 ∧
      stepFn E s = ⟨s.t + (scoreAt E s).step, 0, s.tokens ++ tk,
        s.timestamps ++ List.replicate tk.length s.t, st', s.callLog ++ [s.t]⟩ := by
  by_cases hb : (scoreAt E s).token = E.blankIdx
  · refine ⟨[], s.state, by simp, ?_⟩
    unfold stepFn advanceStep emitStep
    simp [hb, hc]
  · refine ⟨[(scoreAt E s).token], (scoreAt E s).newState, by simp, ?_⟩
    unfold stepFn advanceStep emitStep
    simp [hb, hc]

/-! ## Result-assembly lemmas -/

theorem lookupAll_none (vocab : Nat → Option String) :
    ∀ tokens : List Nat, (∃ i ∈ tokens, vocab i = none) →
      lookupAll vocab tokens = none := by
  intro tokens
  induction tokens with
  | nil => rintro ⟨i, hi, _⟩; cases hi
  | cons a l ih =>
    rintro ⟨i, hi, hnone⟩
    rcases List.mem_cons.mp hi with rfl | hl
    · simp [lookupAll, hnone]
    · cases ha : vocab a
      · simp [lookupAll, ha]
      · simp [lookupAll, ha, ih ⟨i, hl, hnone⟩]

theorem lookupAll_isSome (vocab : Nat → Option String) :
    ∀ tokens : List Nat, (∀ i ∈ tokens, (vocab i).isSome) →
      (lookupAll vocab tokens).isSome := by
  intro tokens
  induction tokens with
  | nil => intro; simp [lookupAll]
  | cons a l ih =>
    intro h
    obtain ⟨w, hw⟩ := Option.isSome_iff_exists.mp (h a (List.mem_cons_self a l))
    have := ih (fun i hi => h i (List.mem_cons_of_mem a hi))
    obtain ⟨ws, hws⟩ := Option.isSome_iff_exists.mp this
    simp [lookupAll, hw, hws]

/-! ## The claims -/

/-- C1 (amended).  The decoder state is replaced exactly in iterations
whose predicted token is non-blank — including iterations cut off by
the per-frame emission cap, whose non-blank emission does update the
state before the forced advance; in every iteration whose predicted
token is blank the state passed to the next Scoring Function call is
identical to the one passed to the current call.  For a Scoring
Function that on every call predicts blank with duration step 0, the
state after the pass equals the initial state, the output is empty, and
the Scoring Function is called exactly `T` times. -/
theorem claim1_state_gating (E : Engine φ σ) (init : σ) :
    (∀ s : LoopState σ, (scoreAt E s).token = E.blankIdx →
      (stepFn E s).state = s.state) ∧
    (∀ s : LoopState σ, (scoreAt E s).token ≠ E.blankIdx →
      (stepFn E s).state = (scoreAt E s).newState) ∧
    ((∀ f p st, (E.score f p st).token = E.blankIdx ∧ (E.score f p st).step = 0) →
      ∃ s', decode E init = some s' ∧ s'.state = init ∧ s'.tokens = [] ∧
        s'.timestamps = [] ∧ s'.callLog.length = E.T) := by
  refine ⟨?_, ?_, ?_⟩
  · intro s hb
    unfold stepFn advanceStep emitStep
    split_ifs <;> simp_all
  · intro s hb
    unfold stepFn advanceStep emitStep
    split_ifs <;> simp_all
  · intro hsynth
    have hrun := blank_run E (fun f p st => (hsynth f p st).1)
      (fun f p st => (hsynth f p st).2) E.T (E.T * (E.maxPerFrame + 1))
      (initState init) (by simp [initState]) rfl
      (Nat.le_mul_of_pos_right E.T (by omega))
    exact ⟨_, hrun, rfl, rfl, rfl, by simp [initState]⟩

/-- Evaluation of `claim1_state_gating` on concrete engines: a blank
iteration leaves the state unchanged, a non-blank iteration installs
the scorer's new state, and the always-blank scorer gives empty output,
the initial state back, and one call per frame. -/
theorem claim1_witness :
    (stepFn engineBlank (initState 0)).state = (initState (σ := Nat) 0).state ∧
    (stepFn engineEmit (initState 0)).state = (scoreAt engineEmit (initState 0)).newState ∧
    ∃ s', decode engineBlank 0 = some s' ∧ s'.state = 0 ∧ s'.tokens = [] ∧
      s'.timestamps = [] ∧ s'.callLog.length = engineBlank.T :=
  ⟨(claim1_state_gating engineBlank 0).1 (initState 0) rfl,
    (claim1_state_gating engineEmit 0).2.1 (initState 0) (by decide),
    (claim1_state_gating engineBlank 0).2.2 (fun _ _ _ => ⟨rfl, rfl⟩)⟩

/-- C1 (counterexample to the claim as stated).  In `engineCap` the
iteration at `t = 0` is cut off by the per-frame emission cap (its
predicted token is non-blank, its predicted step is 0, and the
incremented counter reaches the cap, forcing the advance), yet the
state after the iteration differs from the state passed to its scoring
call — the cap does not suppress the state update.  Moreover a scorer
that predicts blank on every call but with duration step 5 makes a
single scoring call over `T = 5` frames, not `T` calls. -/
theorem claim1_counterexample :
    ((scoreAt engineCap (initState 0)).token ≠ engineCap.blankIdx ∧
      (scoreAt engineCap (initState 0)).step = 0 ∧
      engineCap.maxPerFrame ≤ (emitStep engineCap (initState 0)
        (scoreAt engineCap (initState 0))).emitted ∧
      (stepFn engineCap (initState 0)).t = (initState (σ := Nat) 0).t + 1 ∧
      (stepFn engineCap (initState 0)).state ≠ (initState (σ := Nat) 0).state) ∧
    ((∀ f p st, (engineBlankJump.score f p st).token = engineBlankJump.blankIdx) ∧
      engineBlankJump.T = 5 ∧
      decode engineBlankJump 0 = some ⟨5, 0, [], [], 0, [0]⟩ ∧
      ([0] : List Nat).length ≠ engineBlankJump.T) :=
  ⟨by decide, fun _ _ _ => rfl, rfl, by decide, by decide⟩

/-- C2.  For every encoder length `T ≥ 0`, every cap `maxPerFrame ≥ 1`
and every Scoring Function, the decode pass terminates and makes at
most `T * (maxPerFrame + 1)` Scoring Function calls. -/
theorem claim2_termination (E : Engine φ σ) (init : σ) (hm : 1 ≤ E.maxPerFrame) :
    ∃ s', decode E init = some s' ∧
      s'.callLog.length ≤ E.T * (E.maxPerFrame + 1) := by
  obtain ⟨s', h⟩ := decode_terminates E init hm
  refine ⟨s', h, ?_⟩
  have h' : run E (E.T * (E.maxPerFrame + 1)) (initState init) = some s' := h
  have := run_calls_le E _ _ s' h'
  simpa [initState] using this

/-- Evaluation of `claim2_termination` on a concrete engine. -/
theorem claim2_witness :
    ∃ s', decode engineEmit 0 = some s' ∧
      s'.callLog.length ≤ engineEmit.T * (engineEmit.maxPerFrame + 1) :=
  claim2_termination engineEmit 0 (by decide)

/-- C3.  Cursor movement in one iteration: a positive predicted step
advances the cursor by the step and resets the counter, for blank and
non-blank tokens alike; with step 0, a blank token or a post-emission
counter at the cap advances the cursor by exactly 1 and resets the
counter; otherwise the cursor is unchanged (the next call scores the
same frame) and the counter holds the incremented value. -/
theorem claim3_advancement (E : Engine φ σ) (s : LoopState σ) :
    (0 < (scoreAt E s).step →
      (stepFn E s).t = s.t + (scoreAt E s).step ∧ (stepFn E s).emitted = 0) ∧
    ((scoreAt E s).step = 0 →
      (((scoreAt E s).token = E.blankIdx ∨
          E.maxPerFrame ≤ (emitStep E s (scoreAt E s)).emitted) →
        (stepFn E s).t = s.t + 1 ∧ (stepFn E s).emitted = 0) ∧
      (((scoreAt E s).token ≠ E.blankIdx ∧
          (emitStep E s (scoreAt E s)).emitted < E.maxPerFrame) →
        (stepFn E s).t = s.t ∧ (stepFn E s).emitted = s.emitted + 1)) := by
  unfold stepFn advanceStep emitStep
  split_ifs <;> simp_all <;> omega

/-- Evaluation of `claim3_advancement`: in `engineEmit` the first
iteration has step 0, a non-blank token and a counter below the cap, so
the cursor stays on frame 0 with the counter at 1. -/
theorem claim3_witness :
    (stepFn engineEmit (initState 0)).t = (initState (σ := Nat) 0).t ∧
    (stepFn engineEmit (initState 0)).emitted = (initState (σ := Nat) 0).emitted + 1 :=
  (claim3_advancement engineEmit (initState 0)).2 rfl |>.2 (by decide)

/-- C5.  A non-blank iteration appends exactly the pair
`(token, t)` to the two output lists, installs the token as the
previous-token input of the next call, and increments the per-frame
counter (the value the cap is checked against) by exactly one; a blank
iteration appends nothing, leaves the previous token unchanged, and
does not increment the counter. -/
theorem claim5_emission (E : Engine φ σ) (s : LoopState σ) :
    ((scoreAt E s).token ≠ E.blankIdx →
      (stepFn E s).tokens = s.tokens ++ [(scoreAt E s).token] ∧
      (stepFn E s).timestamps = s.timestamps ++ [s.t] ∧
      (stepFn E s).state = (scoreAt E s).newState ∧
      lastToken E (stepFn E s) = (scoreAt E s).token ∧
      (emitStep E s (scoreAt E s)).emitted = s.emitted + 1) ∧
    ((scoreAt E s).token = E.blankIdx →
      (stepFn E s).tokens = s.tokens ∧
      (stepFn E s).timestamps = s.timestamps ∧
      (stepFn E s).state = s.state ∧
      lastToken E (stepFn E s) = lastToken E s ∧
      (emitStep E s (scoreAt E s)).emitted = s.emitted) := by
  constructor
  · intro hb
    unfold stepFn advanceStep emitStep lastToken
    split_ifs <;> simp_all
  · intro hb
    unfold stepFn advanceStep emitStep lastToken
    split_ifs <;> simp_all

/-- Evaluation of `claim5_emission`: the first iteration of
`engineEmit` (non-blank) appends token 1 with timestamp 0 and installs
token 1 as the next previous-token input; the first iteration of
`engineBlank` (blank) appends nothing. -/
theorem claim5_witness :
    ((stepFn engineEmit (initState 0)).tokens = [] ++ [(scoreAt engineEmit (initState 0)).token] ∧
      lastToken engineEmit (stepFn engineEmit (initState 0)) = (scoreAt engineEmit (initState 0)).token) ∧
    ((stepFn engineBlank (initState 0)).tokens = ([] : List Nat) ∧
      (stepFn engineBlank (initState 0)).state = (initState (σ := Nat) 0).state) :=
  ⟨⟨((claim5_emission engineEmit (initState 0)).1 (by decide)).1,
      ((claim5_emission engineEmit (initState 0)).1 (by decide)).2.2.2.1⟩,
    ⟨((claim5_emission engineBlank (initState 0)).2 rfl).1,
      ((claim5_emission engineBlank (initState 0)).2 rfl).2.2.1⟩⟩

/-- C4.  Livelock guard: under a Scoring Function that on every call
predicts the same fixed non-blank token `k` with duration step 0, and a
positive cap, the pass still terminates, emitting exactly `maxPerFrame`
copies of `k` with timestamp `t` before the forced advance from frame
`t`, for every frame `t` in `0..T-1` — `T * maxPerFrame` emissions in
total. -/
theorem claim4_livelock (E : Engine φ σ) (init : σ) (k : Nat)
    (hm : 1 ≤ E.maxPerFrame) (hk : k ≠ E.blankIdx)
    (hb : ∀ f p st, (E.score f p st).token = k)
    (hs : ∀ f p st, (E.score f p st).step = 0) :
    ∃ s', decode E init = some s' ∧
      s'.tokens = List.replicate (E.T * E.maxPerFrame) k ∧
      s'.timestamps = (List.range E.T).flatMap (fun u => List.replicate E.maxPerFrame u) := by
  obtain ⟨st', h⟩ := const_run E k hk hm hb hs E.T E.T (initState init)
    (by simp [initState]) rfl
  have hfuel : E.T + E.T * E.maxPerFrame = E.T * (E.maxPerFrame + 1) := by
    rw [Nat.mul_add, Nat.mul_one, Nat.add_comm]
  rw [hfuel] at h
  refine ⟨_, show decode E init = _ from h, ?_, ?_⟩
  · simp [initState]
  · simp [initState, List.range_eq_range']

/-- Evaluation of `claim4_livelock` on `engineEmit` (cap 2, two frames):
four emissions of token 1, two per frame. -/
theorem claim4_witness :
    ∃ s', decode engineEmit 0 = some s' ∧
      s'.tokens = List.replicate (engineEmit.T * engineEmit.maxPerFrame) 1 ∧
      s'.timestamps
        = (List.range engineEmit.T).flatMap (fun u => List.replicate engineEmit.maxPerFrame u) :=
  claim4_livelock engineEmit 0 1 (by decide) (by decide)
    (fun _ _ _ => rfl) (fun _ _ _ => rfl)

/-- Adjacent elements of a `Pairwise (≤)` list are non-decreasing. -/
theorem pairwise_le_getD {l : List Nat} (hp : List.Pairwise (· ≤ ·) l) :
    ∀ i, i + 1 < l.length → l.getD i 0 ≤ l.getD (i + 1) 0 := by
  intro i hi
  have h1 : i < l.length := by omega
  rw [List.getD_eq_getElem l 0 h1, List.getD_eq_getElem l 0 hi]
  exact List.pairwise_iff_getElem.mp hp i (i + 1) h1 hi (by omega)

/-- C6.  In every completed decode pass the timestamp sequence is
non-decreasing and every timestamp lies in `[0, T)` (the lower bound is
inherent to the natural-number representation). -/
theorem claim6_timestamps (E : Engine φ σ) (init : σ) (s' : LoopState σ)
    (h : decode E init = some s') :
    (∀ i, i + 1 < s'.timestamps.length →
      s'.timestamps.getD i 0 ≤ s'.timestamps.getD (i + 1) 0) ∧
    ∀ x ∈ s'.timestamps, x < E.T := by
  have h' : run E (E.T * (E.maxPerFrame + 1)) (initState init) = some s' := h
  have hinv : List.Pairwise (· ≤ ·) s'.timestamps ∧
      (∀ x ∈ s'.timestamps, x ≤ s'.t) ∧ ∀ x ∈ s'.timestamps, x < E.T := by
    refine run_inv E (fun s => List.Pairwise (· ≤ ·) s.timestamps ∧
      (∀ x ∈ s.timestamps, x ≤ s.t) ∧ ∀ x ∈ s.timestamps, x < E.T)
      ?_ _ (initState init) s' (by simp [initState]) h'
    rintro s ht ⟨h1, h2, h3⟩
    have hle := stepFn_t_le E s
    rcases stepFn_len E s with ⟨_, hts⟩ | ⟨_, hts⟩
    · rw [hts]
      refine ⟨?_, ?_, ?_⟩
      · rw [List.pairwise_append]
        refine ⟨h1, List.pairwise_singleton _ _, ?_⟩
        intro a ha b hb
        rw [List.mem_singleton] at hb
        exact hb ▸ h2 a ha
      · intro x hx
        rcases List.mem_append.mp hx with hx | hx
        · exact le_trans (h2 x hx) hle
        · rw [List.mem_singleton] at hx
          exact hx ▸ hle
      · intro x hx
        rcases List.mem_append.mp hx with hx | hx
        · exact h3 x hx
        · rw [List.mem_singleton] at hx
          exact hx ▸ ht
    · rw [hts]
      exact ⟨h1, fun x hx => le_trans (h2 x hx) hle, h3⟩
  exact ⟨pairwise_le_getD hinv.1, hinv.2.2⟩

/-- Evaluation of `claim6_timestamps` on the completed pass of
`engineEmit`, whose timestamps are `[0, 0, 1, 1]`. -/
theorem claim6_witness :
    (∀ i, i + 1 < ([0, 0, 1, 1] : List Nat).length →
      ([0, 0, 1, 1] : List Nat).getD i 0 ≤ ([0, 0, 1, 1] : List Nat).getD (i + 1) 0) ∧
    ∀ x ∈ ([0, 0, 1, 1] : List Nat), x < engineEmit.T :=
  claim6_timestamps engineEmit 0 ⟨2, 0, [1, 1, 1, 1], [0, 0, 1, 1], 0, [0, 0, 1, 1]⟩ rfl

/-- A step-5 specialisation of `jump_stepFn`. -/
theorem jump5_stepFn (E : Engine φ σ) (hs : ∀ f p st, (E.score f p st).step = 5)
    (s : LoopState σ) :
    ∃ (tk : List Nat) (st' : σ), tk.length ≤ 1 ∧
      stepFn E s = ⟨s.t + 5, 0, s.tokens ++ tk,
        s.timestamps ++ List.replicate tk.length s.t, st', s.callLog ++ [s.t]⟩ := by
  obtain ⟨tk, st', hl, he⟩ := jump_stepFn E s (by rw [scoreAt, hs]; omega)
  rw [scoreAt, hs] at he
  exact ⟨tk, st', hl, he⟩

/-- Under a constant step-5 scorer the loop visits exactly the frames
`s.t, s.t + 5, …` while they stay below `T`, calling the scorer once
per visited frame and emitting at most one token there. -/
theorem jump5_run (E : Engine φ σ) (hs : ∀ f p st, (E.score f p st).step = 5) :
    ∀ n fuel (s : LoopState σ), E.T ≤ s.t + 5 * n → (∀ j < n, s.t + 5 * j < E.T) →
      n ≤ fuel →
      ∃ (tks tss : List Nat) (e' : Nat) (st' : σ),
        run E fuel s = some ⟨s.t + 5 * n, e', s.tokens ++ tks, s.timestamps ++ tss,
          st', s.callLog ++ List.range' s.t n 5⟩ ∧
        tss.Sublist (List.range' s.t n 5) ∧ tks.length = tss.length := by
  intro n
  induction n with
  | zero =>
    intro fuel s hend _ _
    refine ⟨[], [], s.emitted, s.state, ?_, by simp, rfl⟩
    rw [run_of_ge E fuel s (by omega)]
    cases s
    simp
  | succ n ih =>
    intro fuel s hend hvis hf
    obtain ⟨f, rfl⟩ : ∃ f, fuel = f + 1 := ⟨fuel - 1, by omega⟩
    have ht : s.t < E.T := by
      have := hvis 0 (by omega)
      omega
    obtain ⟨tk, st', hl, he⟩ := jump5_stepFn E hs s
    obtain ⟨tks, tss, e', st'', hrun, hsub, hlen⟩ := ih f
      ⟨s.t + 5, 0, s.tokens ++ tk, s.timestamps ++ List.replicate tk.length s.t,
        st', s.callLog ++ [s.t]⟩
      (by simp; omega) (by intro j hj; have := hvis (j + 1) (by omega); simp; omega)
      (by omega)
    rw [run_succ_of_lt E f s ht, he, hrun]
    refine ⟨tk ++ tks, List.replicate tk.length s.t ++ tss, e', st'', ?_, ?_, ?_⟩
    · have h5 : s.t + 5 + 5 * n = s.t + 5 * (n + 1) := by omega
      simp [h5, List.range'_succ, List.append_assoc]
    · have hsub' : tss.Sublist (List.range' (s.t + 5) n 5) := hsub
      rw [List.range'_succ, ← List.singleton_append]
      refine List.Sublist.append ?_ hsub'
      rcases tk with _ | ⟨a, tl⟩
      · simp
      · rcases tl with _ | _
        · simp
        · simp at hl
    · simp [hlen]

/-- C7.  For a Scoring Function that on every call predicts duration
step 5, a decode pass with `T = 20` visits exactly the frames
0, 5, 10, 15 (cursor jumps of 5), makes exactly 4 Scoring Function
calls, and produces at most 4 emissions, at most one per visited
frame. -/
theorem claim7_duration_jump (E : Engine φ σ) (init : σ) (hT : E.T = 20)
    (hs : ∀ f p st, (E.score f p st).step = 5) :
    ∃ s', decode E init = some s' ∧ s'.callLog = [0, 5, 10, 15] ∧
      s'.timestamps.Sublist [0, 5, 10, 15] ∧
      s'.tokens.length = s'.timestamps.length ∧ s'.tokens.length ≤ 4 := by
  obtain ⟨tks, tss, e', st', hrun, hsub, hlen⟩ := jump5_run E hs 4
    (E.T * (E.maxPerFrame + 1)) (initState init)
    (by simp [initState, hT]) (by intro j hj; interval_cases j <;> simp [initState, hT])
    (by rw [hT]; omega)
  simp only [initState, List.nil_append] at hrun hsub
  have hr4 : List.range' 0 4 5 = [0, 5, 10, 15] := by decide
  rw [hr4] at hrun hsub
  refine ⟨_, show decode E init = _ from hrun, by simp, hsub, by simp [hlen], ?_⟩
  have hle := List.Sublist.length_le hsub
  simp at hle
  simp [hlen]
  omega

/-- Evaluation of `claim7_duration_jump` on `engineJump`. -/
theorem claim7_witness :
    ∃ s', decode engineJump 0 = some s' ∧ s'.callLog = [0, 5, 10, 15] ∧
      s'.timestamps.Sublist [0, 5, 10, 15] ∧
      s'.tokens.length = s'.timestamps.length ∧ s'.tokens.length ≤ 4 :=
  claim7_duration_jump engineJump 0 rfl (fun _ _ _ => rfl)

/-- C8.  The engine never reads a frame out of range: every cursor
value at which a frame is read and scored during a completed pass
(recorded in `callLog`) is below the valid length `T`; the loop guard
is checked before every read. -/
theorem claim8_frame_bounds (E : Engine φ σ) (init : σ) (s' : LoopState σ)
    (h : decode E init = some s') :
    ∀ x ∈ s'.callLog, x < E.T := by
  have h' : run E (E.T * (E.maxPerFrame + 1)) (initState init) = some s' := h
  refine run_inv E (fun s => ∀ x ∈ s.callLog, x < E.T)
    ?_ _ (initState init) s' (by simp [initState]) h'
  intro s ht hP x hx
  rw [stepFn_callLog] at hx
  rcases List.mem_append.mp hx with hx | hx
  · exact hP x hx
  · rw [List.mem_singleton] at hx
    exact hx ▸ ht

/-- Evaluation of `claim8_frame_bounds` on the completed pass of
`engineEmit`, whose frame reads happen at cursors `[0, 0, 1, 1]`: the
read at cursor 1 (a member of that log) is below `T = 2`. -/
theorem claim8_witness :
    (1 : Nat) < engineEmit.T :=
  claim8_frame_bounds engineEmit 0 ⟨2, 0, [1, 1, 1, 1], [0, 0, 1, 1], 0, [0, 0, 1, 1]⟩ rfl
    1 (by decide)

/-- C9 (amended).  If some emitted token index is missing from the
Vocabulary Table, result assembly produces no output at all — the
lookup of line 242 fails, aborting the assembly; there is no
placeholder substitution and no degraded flag.  When every index is
present, assembly produces the joined, trimmed text. -/
theorem claim9_assembly (vocab : Nat → Option String) (tokens : List Nat) :
    ((∃ i ∈ tokens, vocab i = none) → assembleText vocab tokens = none) ∧
    ((∀ i ∈ tokens, (vocab i).isSome) → (assembleText vocab tokens).isSome) := by
  constructor
  · intro hex
    simp [assembleText, lookupAll_none vocab tokens hex]
  · intro hall
    obtain ⟨ws, hws⟩ := Option.isSome_iff_exists.mp (lookupAll_isSome vocab tokens hall)
    simp [assembleText, hws]

/-- Evaluation of `claim9_assembly`: assembling `[3, 2]` against the
example vocabulary (which lacks index 2) fails, while assembling
`[0, 3]` (all present) succeeds. -/
theorem claim9_witness :
    assembleText vocabEx [3, 2] = none ∧ (assembleText vocabEx [0, 3]).isSome :=
  ⟨(claim9_assembly vocabEx [3, 2]).1 ⟨2, by decide, rfl⟩,
    (claim9_assembly vocabEx [0, 3]).2 (by decide)⟩

/-- C9 (counterexample to the claim as stated).  The claim asserts that
assembly of a token list containing an index missing from the
vocabulary still produces (placeholder-substituted, degraded-flagged)
output.  In the code the assembly of `[0, 1]` against a vocabulary
lacking index 1 produces no output at all — the pass aborts — although
the same vocabulary assembles `[0, 3]` fine, so the abort is caused
precisely by the unknown token. -/
theorem claim9_counterexample :
    vocabEx 1 = none ∧ assembleText vocabEx [0, 1] = none ∧
      (assembleText vocabEx [0, 3]).isSome :=
  ⟨rfl, rfl, rfl⟩

/-- C10.  One iteration preserves equality of the token- and
timestamp-list lengths (both lists grow by one entry on emission and
are untouched otherwise, and nothing else modifies them), so the two
lists of every completed pass have equal length. -/
theorem claim10_lengths (E : Engine φ σ) (init : σ) :
    (∀ s : LoopState σ, s.tokens.length = s.timestamps.length →
      (stepFn E s).tokens.length = (stepFn E s).timestamps.length) ∧
    ∀ s', decode E init = some s' → s'.tokens.length = s'.timestamps.length := by
  have hstep : ∀ s : LoopState σ, s.tokens.length = s.timestamps.length →
      (stepFn E s).tokens.length = (stepFn E s).timestamps.length := by
    intro s hlen
    rcases stepFn_len E s with ⟨htok, hts⟩ | ⟨htok, hts⟩ <;>
      rw [htok, hts] <;> simp [hlen]
  refine ⟨hstep, ?_⟩
  intro s' h
  have h' : run E (E.T * (E.maxPerFrame + 1)) (initState init) = some s' := h
  exact run_inv E (fun s => s.tokens.length = s.timestamps.length)
    (fun s _ => hstep s) _ (initState init) s' (by simp [initState]) h'

/-- Evaluation of `claim10_lengths`: one emitting iteration of
`engineEmit` keeps the lengths equal, and so does its completed pass. -/
theorem claim10_witness :
    (stepFn engineEmit (initState 0)).tokens.length
        = (stepFn engineEmit (initState 0)).timestamps.length ∧
    (⟨2, 0, [1, 1, 1, 1], [0, 0, 1, 1], 0, [0, 0, 1, 1]⟩ : LoopState Nat).tokens.length
        = (⟨2, 0, [1, 1, 1, 1], [0, 0, 1, 1], 0, [0, 0, 1, 1]⟩ : LoopState Nat).timestamps.length :=
  ⟨(claim10_lengths engineEmit 0).1 (initState 0) rfl,
    (claim10_lengths engineEmit 0).2 _ rfl⟩

end Parakeet
